import Mathlib

/-!
Verification development for the PDF/BibTeX ingestion script
(`scripts/ingest.py`).

The script is embedded shallowly:

* pure functions (`chunk_text`, the metadata defaulting logic) become Lean
  functions over `List Char` / `String`;
* the `while` loop of `chunk_text` becomes a fuel-indexed loop
  (`chunkTextLoop`) returning `Option`, where `none` means the loop has not
  finished within the given fuel — `chunk_text` runs it with fuel
  `text.length`, which suffices exactly when `overlap < chunk_size`;
* external collaborators (the filesystem, `bibtexparser.loads`, `pypdf`,
  the embedding provider, the Supabase client) become oracle parameters
  returning `Except`, so a raised exception is an `Except.error` value;
* the side-effecting `main` driver becomes a function producing the ordered
  trace of observable events (prompts, network calls, inserts, log lines),
  so temporal claims become statements about that trace.
-/

/-- A parsed BibTeX entry as `bibtexparser` hands it back: a string-keyed
record; `entry.get k default` in Python is `(field).getD default` here, with
`none` standing for an absent key. -/
structure Entry where
  title : Option String
  year : Option String
  journal : Option String
  booktitle : Option String
  ENTRYTYPE : Option String
  author : Option String
deriving DecidableEq

/-- The metadata dictionary built by the script.  `author` and `journal` are
`Option` because the script sometimes leaves those keys out of the dictionary
entirely (`none` = key absent). -/
structure DocMeta where
  source : String
  title : String
  year : String
  type : String
  author : Option String
  journal : Option String
deriving DecidableEq

/-- The two chained `.replace` calls in `parse_bib_file` that strip the
brace delimiter characters from the title: removing every occurrence of a
single-character substring is filtering that character out.
(`Char.ofNat 123` and `Char.ofNat 125` are the opening and closing brace.) -/
def stripBraces (s : String) : String :=
  ⟨s.data.filter fun ch => !(ch == Char.ofNat 123 || ch == Char.ofNat 125)⟩

/-- The `metadata` dictionary `parse_bib_file` starts from (its lines 61-67):
note it has an `author` key but no `journal` key. -/
def defaultMetadata (filename : String) : DocMeta :=
  { source := filename
    title := filename
    year := "Unknown"
    type := "document"
    author := some "Unknown"
    journal := none }

/-- The function `parse_bib_file(bib_path, filename)`.  `read_text` is the outcome of
`bib_path.read_text()` and `loads` the behaviour of `bibtexparser.loads`;
a Python exception raised by either is an `Except.error`, and the script's
`try/except` around them is the outer `match`.  When the database has
entries, the first entry updates every key of the default dictionary and
adds the `journal` key. -/
def parse_bib_file (read_text : Except String String)
    (loads : String → Except String (List Entry)) (filename : String) : DocMeta :=
  let metadata := defaultMetadata filename
  match read_text.bind loads with
  | Except.error _ => metadata
  | Except.ok entries =>
    match entries with
    | [] => metadata
    | entry :: _ =>
      { metadata with
        title := stripBraces (entry.title.getD filename)
        year := entry.year.getD "Unknown"
        journal := some (entry.journal.getD (entry.booktitle.getD "Unknown"))
        type := entry.ENTRYTYPE.getD "document"
        author := some (entry.author.getD "Unknown") }

/-- One PDF file discovered by `docs_dir.glob("*.pdf")`: its `name`, its
`stem`, and its sibling `.bib` file — `none` when `bib_path.exists()` is
false, otherwise the outcome of reading it. -/
structure PdfEntry where
  name : String
  stem : String
  bib : Option (Except String String)

/-- One element of the worklist `scan_documents` returns:
`{"path": pdf_path, "meta": ...}` (the path identified by its name). -/
structure IngestItem where
  path : String
  meta : DocMeta
deriving DecidableEq

/-- The body of the `for pdf_path in pdf_files` loop of `scan_documents`,
appending to `valid_items` and `missing_bibs` in file order.  The default
metadata built inline there (its lines 106-111) has no `author` key. -/
def scanLoop (loads : String → Except String (List Entry)) :
    List PdfEntry → List IngestItem × List String
  | [] => ([], [])
  | pdf :: rest =>
    let acc := scanLoop loads rest
    match pdf.bib with
    | none =>
      let default_meta : DocMeta :=
        { source := pdf.name
          title := pdf.stem
          year := "Unknown"
          type := "document"
          author := none
          journal := none }
      ({ path := pdf.name, meta := default_meta } :: acc.1, pdf.name :: acc.2)
    | some read_result =>
      ({ path := pdf.name, meta := parse_bib_file read_result loads pdf.name } :: acc.1,
       acc.2)

/-- The function `scan_documents(docs_dir)`.  `docs_dir = none` models a directory that
does not exist (`raise FileNotFoundError`); otherwise `some pdf_files` is
what `glob("*.pdf")` found. -/
def scan_documents (loads : String → Except String (List Entry))
    (docs_dir : Option (List PdfEntry)) :
    Except String (List IngestItem × List String) :=
  match docs_dir with
  | none => Except.error "Docs directory not found"
  | some pdf_files => Except.ok (scanLoop loads pdf_files)

/-- The `while start < text_len` loop of `chunk_text`, one unit of fuel per
iteration.  `none` means the loop is still running when the fuel runs out;
since `start` only ever grows by `chunk_size - overlap`, any terminating run
is reproduced exactly by a large enough fuel.  (`start` is a `Nat` and the
increment uses truncated subtraction: for `overlap < chunk_size` this is the
exact integer arithmetic of the script, and for `chunk_size ≤ overlap` the
script's `start` never increases past `text_len` either, so the loop
likewise never finishes.) -/
def chunkTextLoop (text : List Char) (chunk_size overlap : Nat) :
    Nat → Nat → Option (List (List Char))
  | 0, start => if start < text.length then none else some []
  | fuel + 1, start =>
    if start < text.length then
      (chunkTextLoop text chunk_size overlap fuel (start + (chunk_size - overlap))).map
        fun rest => ((text.drop start).take chunk_size) :: rest
    else some []

/-- The function `chunk_text(text, chunk_size=1000, overlap=100)`: the loop started at
`start = 0`, with fuel `text.length` (sufficient whenever
`overlap < chunk_size`, see `chunk_text_eq_chunksFrom`).
`text[start:end]` with `end = start + chunk_size` is
`(text.drop start).take chunk_size`. -/
def chunk_text (text : List Char) (chunk_size : Nat := 1000) (overlap : Nat := 100) :
    Option (List (List Char)) :=
  chunkTextLoop text chunk_size overlap text.length 0

/-- The closed form of the terminating runs of `chunk_text`'s loop: the
chunks emitted from offset `start` on, under the documented precondition
`overlap < chunk_size` (which is part of the guard so that the recursion is
well founded).  `chunk_text_eq_chunksFrom` proves it is exactly what the
fuel-indexed loop returns. -/
def chunksFrom (text : List Char) (chunk_size overlap : Nat) (start : Nat) :
    List (List Char) :=
  if _h : start < text.length ∧ overlap < chunk_size then
    ((text.drop start).take chunk_size) ::
      chunksFrom text chunk_size overlap (start + (chunk_size - overlap))
  else []
termination_by text.length - start
decreasing_by omega

/-- Failure condition the spec (§4.4) demands of a reimplementation of the
chunker. -/
inductive ChunkErr where
  | invalidChunkConfig
deriving DecidableEq

/-- Modelled from the spec: the source `chunk_text` never validates
`chunk_size > overlap`; §4.4 of the spec requires the configuration to be
validated so that `chunk_size ≤ overlap` fails fast with an
`InvalidChunkConfig` condition instead of looping forever.  This is that
validated chunker. -/
def chunk_text_checked (text : List Char) (chunk_size overlap : Nat) :
    Except ChunkErr (List (List Char)) :=
  if chunk_size ≤ overlap then Except.error ChunkErr.invalidChunkConfig
  else Except.ok (chunksFrom text chunk_size overlap 0)

/-- The chunk count the spec claims (§8, first property): the ceiling of
`max(L - overlap, 0) / (chunk_size - overlap)`, written with natural-number
ceiling division (`⌈a/b⌉ = (a + b - 1) / b`; `max (L - o) 0 = L - o` over
`Nat`).  Stated from the spec's words, for comparison with the code. -/
def specClaimedChunkCount (L chunk_size overlap : Nat) : Nat :=
  (max (L - overlap) 0 + (chunk_size - overlap) - 1) / (chunk_size - overlap)

/-- The spec's phrase "chunks `i` and `i+1` share exactly `o` characters of
overlap", stated from the spec's words: both chunks have at least `o`
characters and the `o`-character suffix of the first is the `o`-character
prefix of the second. -/
def sharesExactlyOverlap (o : Nat) (a b : List Char) : Prop :=
  o ≤ a.length ∧ o ≤ b.length ∧ a.drop (a.length - o) = b.take o

/-- The overlap property exactly as the spec states it (§8, second
property), stated from the spec's words: every pair of consecutive chunks
shares exactly `o` characters, the only permitted exception being a pair
whose second element is the final chunk and shorter than `c`. -/
def specOverlapClaim (o c : Nat) (l : List (List Char)) : Prop :=
  ∀ i, i + 1 < l.length →
    (i + 1 = l.length - 1 ∧ (l.getD (i + 1) []).length < c) ∨
      sharesExactlyOverlap o (l.getD i []) (l.getD (i + 1) [])

/-- The observable events of one run of `main`, in program order: console
milestones, confirmation prompts and their answers, and every external
(network/storage) call. -/
inductive Event where
  | scanned
  | scanFailed
  | noFiles
  | warnMissing (names : List String)
  | confirmMissing (answer : Bool)
  | reviewTable
  | confirmStart (answer : Bool)
  | aborted
  | connectCall
  | connectFailed
  | truncateCall
  | startIngest
  | processDoc (name : String)
  | docFailed (name : String)
  | embedCall (doc : String) (index : Nat)
  | insertCall (doc : String) (index : Nat)
  | chunkFailed (doc : String) (index : Nat)
  | ingestionComplete
deriving DecidableEq

/-- The external services `setup_services` hands back, as oracles:
`extract` is the whole `PdfReader` + per-page `extract_text` concatenation
for one document (an exception anywhere inside it is an `Except.error`),
`embed` is `get_embedding`, and `insert` is
`supabase.table("documents").insert({...}).execute()` applied to the
record's content, metadata, chunk index and embedding. -/
structure Services where
  extract : String → Except String (List Char)
  embed : List Char → Except String (List Int)
  insert : List Char → DocMeta → Nat → List Int → Except String Unit

/-- The `for i, chunk in enumerate(chunks)` loop with its inner
`try/except`: the embedding call is attempted for every chunk; on success
the insert is attempted; any failure logs `chunkFailed` and the loop moves
to the next chunk. -/
def ingestChunks (sv : Services) (metadata : DocMeta) (doc : String)
    (chunks : List (List Char)) : List Event :=
  (chunks.enum.map fun p =>
    Event.embedCall doc p.1 ::
      match sv.embed p.2 with
      | Except.error _ => [Event.chunkFailed doc p.1]
      | Except.ok embedding =>
        Event.insertCall doc p.1 ::
          match sv.insert p.2 metadata p.1 embedding with
          | Except.error _ => [Event.chunkFailed doc p.1]
          | Except.ok _ => []).flatten

/-- The body of the `for item in items` loop with its outer `try/except`:
extraction failure logs `docFailed` and moves to the next document;
otherwise the text is chunked (`chunk_text` with its default sizes — the
`none` branch is unreachable, see `chunk_text_eq_chunksFrom`) and every
chunk is processed. -/
def ingestDoc (sv : Services) (item : IngestItem) : List Event :=
  Event.processDoc item.path ::
    match sv.extract item.path with
    | Except.error _ => [Event.docFailed item.path]
    | Except.ok full_text =>
      match chunk_text full_text with
      | none => []
      | some chunks => ingestChunks sv item.meta item.path chunks

/-- The whole ingestion loop over the worklist. -/
def ingest_all (sv : Services) (items : List IngestItem) : List Event :=
  (items.map (ingestDoc sv)).flatten

/-- The driver `main()` (named `main_trace` because Lean reserves the name
for an entry point), as the trace of its observable events.  Inputs: the
`bibtexparser` oracle, the directory contents (`none` = missing directory),
the operator's two confirmation answers, the outcome of `setup_services`
(carrying the service handles on success), and the `--truncate` flag.
The branch structure mirrors the script line by line: scan; early return on
an empty worklist; missing-metadata warning plus first confirmation;
review table plus second confirmation; connecting; optional truncate
(whose own failure is caught inside `truncate_database`); the ingestion
loop; the final success message. -/
def main_trace (loads : String → Except String (List Entry))
    (docs_dir : Option (List PdfEntry)) (confirm_missing confirm_start : Bool)
    (connect : Except String Services) (truncate_flag : Bool) : List Event :=
  match scan_documents loads docs_dir with
  | Except.error _ => [Event.scanFailed]
  | Except.ok (items, missing_bibs) =>
    Event.scanned ::
      if items = [] then [Event.noFiles]
      else
        (if missing_bibs = [] then []
         else [Event.warnMissing missing_bibs, Event.confirmMissing confirm_missing]) ++
        if missing_bibs ≠ [] ∧ confirm_missing = false then [Event.aborted]
        else
          Event.reviewTable :: Event.confirmStart confirm_start ::
            if confirm_start = false then [Event.aborted]
            else
              Event.connectCall ::
                match connect with
                | Except.error _ => [Event.connectFailed]
                | Except.ok sv =>
                  (if truncate_flag then [Event.truncateCall] else []) ++
                    Event.startIngest ::
                      (ingest_all sv items ++ [Event.ingestionComplete])

/-- Events that are a network or storage side effect: connecting to the
services, truncating the store, an embedding call, an insert. -/
def Event.isSideEffect : Event → Bool
  | Event.connectCall => true
  | Event.truncateCall => true
  | Event.embedCall _ _ => true
  | Event.insertCall _ _ => true
  | _ => false

/-- The start-ingestion confirmation gate. -/
def Event.isStartGate : Event → Bool
  | Event.confirmStart _ => true
  | _ => false

/-- Events that can only be emitted from inside the ingestion loop. -/
def Event.fromIngestLoop : Event → Bool
  | Event.processDoc _ => true
  | Event.docFailed _ => true
  | Event.embedCall _ _ => true
  | Event.insertCall _ _ => true
  | Event.chunkFailed _ _ => true
  | _ => false

/-- The documents the ingestion loop attempted, in order. -/
def docsProcessed (trace : List Event) : List String :=
  trace.filterMap fun e =>
    match e with
    | Event.processDoc d => some d
    | _ => none

/-- The embedding calls in a trace, in order: (document, chunk index). -/
def embedCalls (trace : List Event) : List (String × Nat) :=
  trace.filterMap fun e =>
    match e with
    | Event.embedCall d i => some (d, i)
    | _ => none

/-! ## Helper lemmas about the chunker -/

theorem chunkTextLoop_eq_chunksFrom (text : List Char) (c o : Nat) (h : o < c) :
    ∀ fuel start, text.length - start ≤ fuel →
      chunkTextLoop text c o fuel start = some (chunksFrom text c o start) := by
  intro fuel
  induction fuel with
  | zero =>
    intro start hle
    rw [chunksFrom]
    have : ¬ start < text.length := by omega
    simp [chunkTextLoop, this]
  | succ n ih =>
    intro start hle
    rw [chunksFrom]
    by_cases hs : start < text.length
    · have hrec := ih (start + (c - o)) (by omega)
      simp [chunkTextLoop, hs, hrec, h]
    · simp [chunkTextLoop, hs]

theorem chunk_text_eq_chunksFrom (text : List Char) (c o : Nat) (h : o < c) :
    chunk_text text c o = some (chunksFrom text c o 0) :=
  chunkTextLoop_eq_chunksFrom text c o h text.length 0 (by omega)

theorem chunkTextLoop_none_of_le (text : List Char) (c o : Nat) (h : c ≤ o) :
    ∀ fuel start, start < text.length → chunkTextLoop text c o fuel start = none := by
  intro fuel
  induction fuel with
  | zero => intro start hs; simp [chunkTextLoop, hs]
  | succ n ih =>
    intro start hs
    have hco : c - o = 0 := by omega
    simp [chunkTextLoop, hs, hco, ih start hs]

theorem chunksFrom_get? (text : List Char) (c o : Nat) (h : o < c) :
    ∀ start k, (chunksFrom text c o start).get? k =
      if start + k * (c - o) < text.length then
        some ((text.drop (start + k * (c - o))).take c)
      else none := by
  intro start
  induction start using chunksFrom.induct text c o with
  | case1 start hg ih =>
    intro k
    rw [chunksFrom, dif_pos hg]
    match k with
    | 0 => simp [hg.1]
    | k + 1 =>
      have hk := ih k
      have harith : start + (c - o) + k * (c - o) = start + (k + 1) * (c - o) := by ring
      rw [List.get?_cons_succ, hk, harith]
  | case2 start hg =>
    intro k
    rw [chunksFrom, dif_neg hg]
    have : ¬ start + k * (c - o) < text.length := by
      rcases not_and_or.mp hg with h1 | h2
      · omega
      · exact absurd h h2
    simp [this]

theorem chunksFrom_length (text : List Char) (c o : Nat) (h : o < c) :
    ∀ start, (chunksFrom text c o start).length =
      (text.length - start + (c - o) - 1) / (c - o) := by
  intro start
  induction start using chunksFrom.induct text c o with
  | case1 start hg ih =>
    rw [chunksFrom, dif_pos hg]
    have hs1 : 1 ≤ c - o := by omega
    have hr : 1 ≤ text.length - start := by omega
    rw [List.length_cons, ih]
    -- arithmetic: 1 + ((L - (start + s)) + s - 1) / s = ((L - start) + s - 1) / s
    set s := c - o with hs
    set r := text.length - start with hrdef
    have hrs : text.length - (start + s) = r - s := by omega
    rw [hrs]
    have hgoal : (r - s + s - 1) / s + 1 = (r + s - 1) / s := by
      rcases le_or_lt r s with hle | hlt
      · have e1 : r - s = 0 := by omega
        have e2 : r + s - 1 = (r - 1) + s := by omega
        rw [e1, e2, Nat.add_div_right _ (by omega)]
        have : (0 + s - 1) / s = 0 := Nat.div_eq_of_lt (by omega)
        have h2 : (r - 1) / s = 0 := Nat.div_eq_of_lt (by omega)
        omega
      · have e1 : r - s + s - 1 = (r - s - 1) + s := by omega
        have e2 : r + s - 1 = ((r - s - 1) + s) + s := by omega
        have d1 : ((r - s - 1) + s) / s = (r - s - 1) / s + 1 :=
          Nat.add_div_right _ (by omega)
        have d2 : (((r - s - 1) + s) + s) / s = ((r - s - 1) + s) / s + 1 :=
          Nat.add_div_right _ (by omega)
        rw [e1, e2, d2, d1]
    omega
  | case2 start hg =>
    rw [chunksFrom, dif_neg hg]
    have hL : text.length ≤ start := by
      rcases not_and_or.mp hg with h1 | h2
      · omega
      · exact absurd h h2
    have : text.length - start = 0 := by omega
    rw [List.length_nil, this]
    exact (Nat.div_eq_of_lt (by omega)).symm

theorem chunksFrom_reconstruct (text : List Char) (c o : Nat) (h : o < c) :
    ∀ start,
      (((chunksFrom text c o start).dropLast.map fun ch => ch.take (c - o)).flatten)
          ++ (chunksFrom text c o start).getLastD [] = text.drop start := by
  intro start
  induction start using chunksFrom.induct text c o with
  | case1 start hg ih =>
    rw [chunksFrom, dif_pos hg]
    by_cases hrest : chunksFrom text c o (start + (c - o)) = []
    · -- final chunk: the tail is empty, so start + (c - o) ≥ text.length
      have hstop : ¬ (start + (c - o) < text.length ∧ o < c) := by
        intro hcon
        rw [chunksFrom, dif_pos hcon] at hrest
        exact List.cons_ne_nil _ _ hrest
      have hlen : text.length ≤ start + (c - o) := by
        rcases not_and_or.mp hstop with h1 | h2
        · omega
        · exact absurd h h2
      rw [hrest]
      have : ((text.drop start).length ≤ c) := by
        rw [List.length_drop]; omega
      simp [List.take_of_length_le this]
    · rw [List.dropLast_cons_of_ne_nil hrest, List.map_cons, List.flatten_cons,
        List.getLastD_cons]
      have hlast : (chunksFrom text c o (start + (c - o))).getLastD ((text.drop start).take c)
          = (chunksFrom text c o (start + (c - o))).getLastD [] := by
        rw [List.getLastD_eq_getLast?, List.getLastD_eq_getLast?]
        rcases List.exists_cons_of_ne_nil hrest with ⟨b, bs, hbs⟩
        rw [hbs]
        simp [List.getLast?_cons]
      rw [hlast, List.append_assoc, ih]
      -- take (c-o) of the chunk, then the rest of the text
      have htake : ((text.drop start).take c).take (c - o) = (text.drop start).take (c - o) := by
        rw [List.take_take]
        congr 1
        omega
      rw [htake]
      have hdd : (text.drop start).drop (c - o) = text.drop (start + (c - o)) := by
        rw [List.drop_drop]
      rw [← hdd, List.take_append_drop]
  | case2 start hg =>
    rw [chunksFrom, dif_neg hg]
    have hlen : text.length ≤ start := by
      rcases not_and_or.mp hg with h1 | h2
      · omega
      · exact absurd h h2
    simp [List.drop_eq_nil_of_le hlen]

theorem chunksFrom_overlap (text : List Char) (c o : Nat) (h : o < c)
    (i : Nat) (a b : List Char)
    (ha : (chunksFrom text c o 0).get? i = some a)
    (hb : (chunksFrom text c o 0).get? (i + 1) = some b) :
    a.drop (c - o) = b.take o ∧
    (a.drop (c - o)).length = min o b.length ∧
    (a.length = c → (a.drop (c - o)).length = o) := by
  have hga := chunksFrom_get? text c o h 0 i
  have hgb := chunksFrom_get? text c o h 0 (i + 1)
  rw [ha] at hga
  rw [hb] at hgb
  by_cases hia : 0 + i * (c - o) < text.length
  swap
  · rw [if_neg hia] at hga; exact absurd hga (by simp)
  by_cases hib : 0 + (i + 1) * (c - o) < text.length
  swap
  · rw [if_neg hib] at hgb; exact absurd hgb (by simp)
  rw [if_pos hia] at hga
  rw [if_pos hib] at hgb
  have hav : a = (text.drop (i * (c - o))).take c := by
    have := Option.some.inj hga
    simpa using this
  have hbv : b = (text.drop ((i + 1) * (c - o))).take c := by
    have := Option.some.inj hgb
    simpa using this
  simp only [zero_add] at hia hib
  have hmul : i * (c - o) + (c - o) = (i + 1) * (c - o) := by ring
  have hdropa : a.drop (c - o) = (text.drop ((i + 1) * (c - o))).take o := by
    rw [hav, List.drop_take, List.drop_drop, hmul]
    congr 1
    omega
  have hbtake : b.take o = (text.drop ((i + 1) * (c - o))).take o := by
    rw [hbv, List.take_take]
    congr 1
    omega
  refine ⟨hdropa.trans hbtake.symm, ?_, ?_⟩
  · rw [hdropa, hbv]
    simp only [List.length_take, List.length_drop]
    omega
  · intro hac
    rw [hav, List.length_take, List.length_drop] at hac
    rw [hdropa, List.length_take, List.length_drop]
    omega

/-! ## Helper lemmas about the ingestion loop trace -/

/-- Events emitted by the per-chunk loop. -/
def Event.isChunkLevel : Event → Bool
  | Event.embedCall _ _ => true
  | Event.insertCall _ _ => true
  | Event.chunkFailed _ _ => true
  | _ => false

theorem mem_ingestChunks_isChunkLevel (sv : Services) (m : DocMeta) (d : String)
    (chunks : List (List Char)) :
    ∀ e ∈ ingestChunks sv m d chunks, e.isChunkLevel = true := by
  intro e he
  unfold ingestChunks at he
  rw [List.mem_flatten] at he
  obtain ⟨l, hl, hel⟩ := he
  rw [List.mem_map] at hl
  obtain ⟨p, _hp, rfl⟩ := hl
  simp only [List.mem_cons] at hel
  rcases hel with rfl | hel
  · rfl
  · cases hemb : sv.embed p.2 with
    | error err =>
      simp only [hemb, List.mem_singleton] at hel
      subst hel; rfl
    | ok emb =>
      simp only [hemb, List.mem_cons] at hel
      rcases hel with rfl | hel
      · rfl
      · cases hins : sv.insert p.2 m p.1 emb with
        | error err =>
          simp only [hins, List.mem_singleton] at hel
          subst hel; rfl
        | ok u =>
          simp [hins] at hel

theorem mem_ingestDoc_fromIngestLoop (sv : Services) (item : IngestItem) :
    ∀ e ∈ ingestDoc sv item, e.fromIngestLoop = true := by
  intro e he
  unfold ingestDoc at he
  simp only [List.mem_cons] at he
  rcases he with rfl | he
  · rfl
  · cases hex : sv.extract item.path with
    | error err =>
      simp only [hex, List.mem_singleton] at he
      subst he; rfl
    | ok full_text =>
      simp only [hex] at he
      cases hct : chunk_text full_text with
      | none => simp [hct] at he
      | some chunks =>
        simp only [hct] at he
        have := mem_ingestChunks_isChunkLevel sv item.meta item.path chunks e he
        cases e <;> simp_all [Event.isChunkLevel, Event.fromIngestLoop]

theorem mem_ingest_all_fromIngestLoop (sv : Services) (items : List IngestItem) :
    ∀ e ∈ ingest_all sv items, e.fromIngestLoop = true := by
  intro e he
  unfold ingest_all at he
  rw [List.mem_flatten] at he
  obtain ⟨l, hl, hel⟩ := he
  rw [List.mem_map] at hl
  obtain ⟨item, _hi, rfl⟩ := hl
  exact mem_ingestDoc_fromIngestLoop sv item e hel

theorem docsProcessed_ingestChunks (sv : Services) (m : DocMeta) (d : String)
    (chunks : List (List Char)) :
    docsProcessed (ingestChunks sv m d chunks) = [] := by
  rw [docsProcessed, List.filterMap_eq_nil_iff]
  intro e he
  have := mem_ingestChunks_isChunkLevel sv m d chunks e he
  cases e <;> simp_all [Event.isChunkLevel]

theorem docsProcessed_ingestDoc (sv : Services) (item : IngestItem) :
    docsProcessed (ingestDoc sv item) = [item.path] := by
  unfold ingestDoc
  cases hex : sv.extract item.path with
  | error err => simp [hex, docsProcessed]
  | ok full_text =>
    cases hct : chunk_text full_text with
    | none => simp [hex, hct, docsProcessed]
    | some chunks =>
      have h2 := docsProcessed_ingestChunks sv item.meta item.path chunks
      rw [docsProcessed] at h2
      simp [hex, hct, docsProcessed, h2]

theorem docsProcessed_ingest_all (sv : Services) (items : List IngestItem) :
    docsProcessed (ingest_all sv items) = items.map IngestItem.path := by
  induction items with
  | nil => rfl
  | cons item rest ih =>
    have h1 := docsProcessed_ingestDoc sv item
    rw [docsProcessed] at h1
    simp only [ingest_all, docsProcessed, List.map_cons, List.flatten_cons,
      List.filterMap_append] at ih ⊢
    rw [h1, ih]
    rfl

theorem embedCalls_ingestChunks (sv : Services) (m : DocMeta) (d : String)
    (chunks : List (List Char)) :
    embedCalls (ingestChunks sv m d chunks) =
      (List.range chunks.length).map fun i => (d, i) := by
  have aux : ∀ ps : List (Nat × List Char),
      embedCalls ((ps.map fun p =>
        Event.embedCall d p.1 ::
          match sv.embed p.2 with
          | Except.error _ => [Event.chunkFailed d p.1]
          | Except.ok embedding =>
            Event.insertCall d p.1 ::
              match sv.insert p.2 m p.1 embedding with
              | Except.error _ => [Event.chunkFailed d p.1]
              | Except.ok _ => []).flatten) = ps.map fun p => (d, p.1) := by
    intro ps
    induction ps with
    | nil => rfl
    | cons p rest ih =>
      simp only [embedCalls, List.map_cons, List.flatten_cons,
        List.filterMap_append] at ih ⊢
      rw [ih]
      cases hemb : sv.embed p.2 with
      | error err => simp [hemb]
      | ok emb =>
        cases hins : sv.insert p.2 m p.1 emb with
        | error err => simp [hemb, hins]
        | ok u => simp [hemb, hins]
  rw [ingestChunks, aux, ← List.enum_map_fst chunks, List.map_map]
  rfl

/-- The trace of a run that passes both confirmation gates and connects
successfully: every branch condition resolved, the trace is the review
prefix followed by the connect call, the optional truncate, the whole
ingestion loop, and the final success message. -/
theorem main_trace_proceeds (loads : String → Except String (List Entry))
    (pdf_files : List PdfEntry) (ans1 : Bool) (sv : Services) (tflag : Bool)
    (items : List IngestItem) (missing : List String)
    (hscan : scanLoop loads pdf_files = (items, missing))
    (hitems : items ≠ [])
    (hmiss : missing ≠ [] → ans1 = true) :
    main_trace loads (some pdf_files) ans1 true (Except.ok sv) tflag =
      Event.scanned ::
        ((if missing = [] then []
          else [Event.warnMissing missing, Event.confirmMissing ans1]) ++
          Event.reviewTable :: Event.confirmStart true ::
            Event.connectCall ::
              ((if tflag then [Event.truncateCall] else []) ++
                Event.startIngest ::
                  (ingest_all sv items ++ [Event.ingestionComplete]))) := by
  rw [main_trace, scan_documents, hscan]
  have hcond : ¬ (missing ≠ [] ∧ ans1 = false) := by
    by_cases hm : missing = []
    · simp [hm]
    · simp [hm, hmiss hm]
  simp [hitems, hcond]

/-! ## Claim theorems -/

/-- C2: during the ingestion loop every per-document and per-chunk failure
is caught rather than propagated.  First conjunct: whatever the service
oracles do (any extraction/embedding/insert outcomes), a run that reaches
the loop attempts every document of the worklist, in order, and ends with
the final success message.  Second conjunct: for a document whose extraction
succeeds, the embedding of every one of its chunks is attempted, whatever
the embedding/insert outcomes of the earlier chunks. -/
theorem ingestion_failure_isolation :
    (∀ (loads : String → Except String (List Entry)) (pdf_files : List PdfEntry)
        (ans1 : Bool) (sv : Services) (tflag : Bool)
        (items : List IngestItem) (missing : List String),
        scanLoop loads pdf_files = (items, missing) →
        items ≠ [] →
        (missing ≠ [] → ans1 = true) →
        docsProcessed (main_trace loads (some pdf_files) ans1 true (Except.ok sv) tflag) =
            items.map IngestItem.path ∧
          (main_trace loads (some pdf_files) ans1 true (Except.ok sv) tflag).getLast? =
            some Event.ingestionComplete) ∧
    (∀ (sv : Services) (item : IngestItem) (full_text : List Char)
        (chunks : List (List Char)),
        sv.extract item.path = Except.ok full_text →
        chunk_text full_text = some chunks →
        embedCalls (ingestDoc sv item) =
          (List.range chunks.length).map fun i => (item.path, i)) := by
  constructor
  · intro loads pdf_files ans1 sv tflag items missing hscan hitems hmiss
    rw [main_trace_proceeds loads pdf_files ans1 sv tflag items missing hscan hitems hmiss]
    have hd := docsProcessed_ingest_all sv items
    rw [docsProcessed] at hd
    constructor
    · by_cases hm : missing = [] <;> by_cases ht : tflag <;>
        simp [hm, ht, docsProcessed, List.filterMap_append, hd]
    · have hlast : ∀ l : List Event,
          (Event.startIngest :: (l ++ [Event.ingestionComplete])).getLast? =
            some Event.ingestionComplete := by
        intro l
        rw [← List.cons_append, List.getLast?_concat]
      by_cases hm : missing = [] <;> by_cases ht : tflag <;>
        simp [hm, ht, List.getLast?_append, List.getLast?_concat, hlast]
  · intro sv item full_text chunks hex hct
    rw [ingestDoc]
    have he := embedCalls_ingestChunks sv item.meta item.path chunks
    rw [embedCalls] at he
    simp [hex, hct, embedCalls, he]

/-- Witness scenario for the failure-isolation theorem: two documents, the
first unreadable, the second extracting to "xyz", with an embedding provider
that always fails. -/
def loadsAlwaysFailing : String → Except String (List Entry) :=
  fun _ => Except.error "parse error"

/-- Witness scenario worklist: `a.pdf` has no sidecar, `b.pdf` has one. -/
def pdfsW2 : List PdfEntry :=
  [⟨"a.pdf", "a", none⟩, ⟨"b.pdf", "b", some (Except.ok "x")⟩]

/-- Witness scenario services: extraction fails for `a.pdf`, the embedding
provider fails for every chunk. -/
def svW2 : Services :=
  { extract := fun p => if p = "a.pdf" then Except.error "boom"
      else Except.ok ['x', 'y', 'z']
    embed := fun _ => Except.error "rate limit"
    insert := fun _ _ _ _ => Except.ok () }

theorem ingestion_failure_isolation_witness :
    docsProcessed (main_trace loadsAlwaysFailing (some pdfsW2) true true
        (Except.ok svW2) false) = ["a.pdf", "b.pdf"] ∧
      (main_trace loadsAlwaysFailing (some pdfsW2) true true
        (Except.ok svW2) false).getLast? = some Event.ingestionComplete ∧
      embedCalls (ingestDoc svW2 ⟨"b.pdf", defaultMetadata "b.pdf"⟩) =
        [("b.pdf", 0)] := by
  have h1 := ingestion_failure_isolation.1 loadsAlwaysFailing pdfsW2 true svW2 false
    [⟨"a.pdf", ⟨"a.pdf", "a", "Unknown", "document", none, none⟩⟩,
     ⟨"b.pdf", defaultMetadata "b.pdf"⟩] ["a.pdf"] rfl (List.cons_ne_nil _ _)
    (fun _ => rfl)
  have h2 := ingestion_failure_isolation.2 svW2 ⟨"b.pdf", defaultMetadata "b.pdf"⟩
    ['x', 'y', 'z'] [['x', 'y', 'z']] rfl rfl
  exact ⟨h1.1.trans rfl, h1.2, h2.trans rfl⟩

/-- The loop never emits a confirmation prompt. -/
theorem confirmMissing_not_mem_ingest_all (sv : Services) (items : List IngestItem)
    (b : Bool) : Event.confirmMissing b ∉ ingest_all sv items := by
  intro hmem
  have := mem_ingest_all_fromIngestLoop sv items _ hmem
  simp [Event.fromIngestLoop] at this

/-- The loop never emits the start-ingestion prompt either. -/
theorem confirmStart_not_mem_ingest_all (sv : Services) (items : List IngestItem)
    (b : Bool) : Event.confirmStart b ∉ ingest_all sv items := by
  intro hmem
  have := mem_ingest_all_fromIngestLoop sv items _ hmem
  simp [Event.fromIngestLoop] at this

/-- C3: no network or storage side effect (connect, truncate, embed,
insert) occurs before the start-ingestion confirmation gate, and declining
either confirmation ends the run with `Aborted` as the last event and no
side effect anywhere in the trace. -/
theorem confirmation_gate :
    ∀ (loads : String → Except String (List Entry)) (docs_dir : Option (List PdfEntry))
      (ans1 ans2 : Bool) (connect : Except String Services) (tflag : Bool),
      ((main_trace loads docs_dir ans1 ans2 connect tflag).takeWhile
          fun e => !e.isStartGate).all (fun e => !e.isSideEffect) = true ∧
      (Event.confirmMissing false ∈ main_trace loads docs_dir ans1 ans2 connect tflag →
        (main_trace loads docs_dir ans1 ans2 connect tflag).all
            (fun e => !e.isSideEffect) = true ∧
          (main_trace loads docs_dir ans1 ans2 connect tflag).getLast? =
            some Event.aborted) ∧
      (Event.confirmStart false ∈ main_trace loads docs_dir ans1 ans2 connect tflag →
        (main_trace loads docs_dir ans1 ans2 connect tflag).all
            (fun e => !e.isSideEffect) = true ∧
          (main_trace loads docs_dir ans1 ans2 connect tflag).getLast? =
            some Event.aborted) := by
  intro loads docs_dir ans1 ans2 connect tflag
  cases docs_dir with
  | none =>
    simp [main_trace, scan_documents, Event.isStartGate, Event.isSideEffect]
  | some pdf_files =>
    rcases hscan : scanLoop loads pdf_files with ⟨items, missing⟩
    simp only [main_trace, scan_documents, hscan]
    by_cases hit : items = []
    · simp [hit, Event.isStartGate, Event.isSideEffect]
    · simp only [if_neg hit]
      by_cases hm : missing = []
      · -- no missing-metadata warning, so no first confirmation either
        simp only [hm, if_pos rfl, ne_eq, not_true_eq_false, false_and, if_neg,
          List.nil_append, if_false]
        cases ans2 with
        | false =>
          simp [Event.isStartGate, Event.isSideEffect]
        | true =>
          cases connect with
          | error err =>
            simp [Event.isStartGate, Event.isSideEffect]
          | ok sv =>
            refine ⟨?_, ?_, ?_⟩
            · simp [Event.isStartGate, Event.isSideEffect]
            · intro hmem
              by_cases ht : tflag <;>
                simp [ht, confirmMissing_not_mem_ingest_all sv items] at hmem
            · intro hmem
              by_cases ht : tflag <;>
                simp [ht, confirmStart_not_mem_ingest_all sv items] at hmem
      · -- there are documents without sidecar metadata
        cases ans1 with
        | false =>
          simp [hm, Event.isStartGate, Event.isSideEffect]
        | true =>
          simp only [hm, if_neg, ne_eq, not_false_eq_true, true_and,
            Bool.true_eq_false, and_false, if_false]
          cases ans2 with
          | false =>
            simp [hm, Event.isStartGate, Event.isSideEffect]
          | true =>
            cases connect with
            | error err =>
              simp [hm, Event.isStartGate, Event.isSideEffect]
            | ok sv =>
              refine ⟨?_, ?_, ?_⟩
              · simp [hm, Event.isStartGate, Event.isSideEffect]
              · intro hmem
                by_cases ht : tflag <;>
                  simp [ht, confirmMissing_not_mem_ingest_all sv items] at hmem
              · intro hmem
                by_cases ht : tflag <;>
                  simp [ht, confirmStart_not_mem_ingest_all sv items] at hmem

theorem confirmation_gate_witness :
    (main_trace (fun _ => Except.error "e") (some [⟨"a.pdf", "a", none⟩]) false false
        (Except.error "no creds") false).all (fun e => !e.isSideEffect) = true ∧
      (main_trace (fun _ => Except.error "e") (some [⟨"a.pdf", "a", none⟩]) false false
        (Except.error "no creds") false).getLast? = some Event.aborted :=
  (confirmation_gate (fun _ => Except.error "e") (some [⟨"a.pdf", "a", none⟩]) false false
    (Except.error "no creds") false).2.1 (by decide)

/-- C1 (amended): for `overlap < chunk_size` the number of chunks is
`⌈L / (c - o)⌉` (written `(L + (c - o) - 1) / (c - o)` over `Nat`), which is
zero exactly when the text is empty.  The spec's formula
`⌈max(L - o, 0) / (c - o)⌉` is wrong (see the counterexample). -/
theorem chunk_text_count (text : List Char) (c o : Nat) (h : o < c) :
    (chunk_text text c o).map List.length =
        some ((text.length + (c - o) - 1) / (c - o)) ∧
      ((text.length + (c - o) - 1) / (c - o) = 0 ↔ text.length = 0) := by
  constructor
  · rw [chunk_text_eq_chunksFrom text c o h]
    have := chunksFrom_length text c o h 0
    simp only [Nat.sub_zero] at this
    simp [this]
  · rw [Nat.div_eq_zero_iff (by omega : 0 < c - o)]
    omega

theorem chunk_text_count_witness :
    1 < 2 ∧
      ((chunk_text ['a', 'b', 'c'] 2 1).map List.length =
          some (((['a', 'b', 'c'] : List Char).length + (2 - 1) - 1) / (2 - 1)) ∧
        (((['a', 'b', 'c'] : List Char).length + (2 - 1) - 1) / (2 - 1) = 0 ↔
          (['a', 'b', 'c'] : List Char).length = 0)) :=
  ⟨by decide, chunk_text_count ['a', 'b', 'c'] 2 1 (by decide)⟩

/-- C1 counterexample: a one-character text with `chunk_size = 2` and
`overlap = 1` has length `L = 1 > 0`; the code produces one chunk but the
spec's formula `⌈max(L - o, 0) / (c - o)⌉` gives zero. -/
theorem chunk_count_claim_counterexample :
    chunk_text ['a'] 2 1 = some [['a']] ∧
      specClaimedChunkCount (List.length ['a']) 2 1 = 0 ∧ (1 : Nat) ≠ 0 :=
  ⟨rfl, rfl, by decide⟩

/-- C5: under `overlap < chunk_size`, `chunk_text` terminates and chunk `i`
is exactly the slice of the text from offset `i * (c - o)` through
`i * (c - o) + c`, clipped to the text length; a chunk at index `i` exists
exactly when that start offset is below the text length; empty text yields
zero chunks. -/
theorem chunk_text_windows (text : List Char) (c o : Nat) (h : o < c) :
    ∃ l, chunk_text text c o = some l ∧
      (∀ i, l.get? i =
        if i * (c - o) < text.length then
          some ((text.drop (i * (c - o))).take c)
        else none) ∧
      (text = [] → l = []) := by
  refine ⟨chunksFrom text c o 0, chunk_text_eq_chunksFrom text c o h, ?_, ?_⟩
  · intro i
    have := chunksFrom_get? text c o h 0 i
    simpa using this
  · intro hte
    subst hte
    rw [chunksFrom]
    simp

theorem chunk_text_windows_witness :
    1 < 3 ∧
      (∃ l, chunk_text ['a', 'b', 'c', 'd', 'e'] 3 1 = some l ∧
        (∀ i, l.get? i =
          if i * (3 - 1) < (['a', 'b', 'c', 'd', 'e'] : List Char).length then
            some (((['a', 'b', 'c', 'd', 'e'] : List Char).drop (i * (3 - 1))).take 3)
          else none) ∧
        ((['a', 'b', 'c', 'd', 'e'] : List Char) = [] → l = [])) :=
  ⟨by decide, chunk_text_windows ['a', 'b', 'c', 'd', 'e'] 3 1 (by decide)⟩

/-- C6 (amended): consecutive chunks `i` and `i+1` overlap as follows — the
part of chunk `i` after its first `c - o` characters coincides with the
first `o` characters of chunk `i+1`, the shared region has exactly
`min o |chunk i+1|` characters, and it has exactly `o` characters whenever
chunk `i` has the full length `c`.  (The spec's version — exactly `o`
shared characters for every pair, with only the final chunk exempted — is
wrong; any tail chunk can be clipped, see the counterexample.) -/
theorem chunk_overlap_corrected (text : List Char) (c o : Nat) (h : o < c)
    (l : List (List Char)) (hl : chunk_text text c o = some l)
    (i : Nat) (a b : List Char)
    (ha : l.get? i = some a) (hb : l.get? (i + 1) = some b) :
    a.drop (c - o) = b.take o ∧
      (a.drop (c - o)).length = min o b.length ∧
      (a.length = c → (a.drop (c - o)).length = o) := by
  have he := chunk_text_eq_chunksFrom text c o h
  rw [hl] at he
  obtain rfl := Option.some.inj he
  exact chunksFrom_overlap text c o h i a b ha hb

theorem chunk_overlap_corrected_witness :
    (['b', 'c', 'd', 'e'] : List Char).drop (4 - 3) = (['c', 'd', 'e'] : List Char).take 3 ∧
      ((['b', 'c', 'd', 'e'] : List Char).drop (4 - 3)).length =
        min 3 (['c', 'd', 'e'] : List Char).length ∧
      ((['b', 'c', 'd', 'e'] : List Char).length = 4 →
        ((['b', 'c', 'd', 'e'] : List Char).drop (4 - 3)).length = 3) :=
  chunk_overlap_corrected ['a', 'b', 'c', 'd', 'e'] 4 3 (by decide)
    [['a', 'b', 'c', 'd'], ['b', 'c', 'd', 'e'], ['c', 'd', 'e'], ['d', 'e'], ['e']]
    (by decide) 1 ['b', 'c', 'd', 'e'] ['c', 'd', 'e'] (by decide) (by decide)

/-- C6 counterexample: for the text "abcde" with `chunk_size = 4` and
`overlap = 3`, the chunks are `abcd, bcde, cde, de, e`; chunks 2 and 3 —
neither of which is the final chunk — share only 2 characters, not 3, so
the spec's overlap property fails even with its final-chunk exemption. -/
theorem chunk_overlap_claim_counterexample :
    chunk_text ['a', 'b', 'c', 'd', 'e'] 4 3 =
        some [['a', 'b', 'c', 'd'], ['b', 'c', 'd', 'e'], ['c', 'd', 'e'],
          ['d', 'e'], ['e']] ∧
      ¬ specOverlapClaim 3 4
          [['a', 'b', 'c', 'd'], ['b', 'c', 'd', 'e'], ['c', 'd', 'e'],
            ['d', 'e'], ['e']] := by
  refine ⟨by decide, fun hclaim => ?_⟩
  rcases hclaim 2 (by decide) with ⟨hfin, _⟩ | ⟨_, hlen, _⟩
  · exact absurd hfin (by decide)
  · exact absurd hlen (by decide)

/-- C8: `chunk_text` terminates for every configuration with
`overlap < chunk_size` (each iteration strictly increases the start
offset), and for `chunk_size ≤ overlap` the loop literally never finishes —
no amount of fuel completes it — which is why the spec requires the
validated variant `chunk_text_checked` (modelled from the spec) to fail
fast with `InvalidChunkConfig` exactly for `chunk_size ≤ overlap` and to
agree with `chunk_text` otherwise. -/
theorem chunk_termination :
    (∀ (text : List Char) (c o : Nat), o < c →
        chunk_text text c o = some (chunksFrom text c o 0)) ∧
      (∀ (text : List Char) (c o : Nat), c ≤ o → 0 < text.length →
        ∀ fuel, chunkTextLoop text c o fuel 0 = none) ∧
      (∀ (text : List Char) (c o : Nat),
        chunk_text_checked text c o = Except.error ChunkErr.invalidChunkConfig ↔ c ≤ o) ∧
      (∀ (text : List Char) (c o : Nat), o < c →
        chunk_text_checked text c o = Except.ok (chunksFrom text c o 0)) := by
  refine ⟨chunk_text_eq_chunksFrom, ?_, ?_, ?_⟩
  · intro text c o h ht fuel
    exact chunkTextLoop_none_of_le text c o h fuel 0 ht
  · intro text c o
    constructor
    · intro hck
      by_contra hlt
      rw [chunk_text_checked, if_neg hlt] at hck
      exact absurd hck (by simp)
    · intro hle
      rw [chunk_text_checked, if_pos hle]
  · intro text c o h
    rw [chunk_text_checked, if_neg (by omega)]

theorem chunk_termination_witness :
    chunk_text ['a'] 2 1 = some (chunksFrom ['a'] 2 1 0) ∧
      chunkTextLoop ['a'] 1 2 5 0 = none ∧
      chunk_text_checked ['a'] 1 2 = Except.error ChunkErr.invalidChunkConfig :=
  ⟨chunk_termination.1 ['a'] 2 1 (by decide),
    chunk_termination.2.1 ['a'] 1 2 (by decide) (by decide) 5,
    (chunk_termination.2.2.1 ['a'] 1 2).mpr (by decide)⟩

/-- C10: chunking is lossless — concatenating the first `c - o` characters
of every chunk but the last, followed by the whole last chunk, rebuilds the
text exactly. -/
theorem chunk_lossless (text : List Char) (c o : Nat) (h : o < c)
    (l : List (List Char)) (hl : chunk_text text c o = some l) :
    ((l.dropLast.map fun ch => ch.take (c - o)).flatten) ++ l.getLastD [] = text := by
  have he := chunk_text_eq_chunksFrom text c o h
  rw [hl] at he
  obtain rfl := Option.some.inj he
  have := chunksFrom_reconstruct text c o h 0
  simpa using this

theorem chunk_lossless_witness :
    ((([['a', 'b', 'c', 'd'], ['b', 'c', 'd', 'e'], ['c', 'd', 'e'], ['d', 'e'],
          ['e']] : List (List Char)).dropLast.map fun ch => ch.take (4 - 3)).flatten) ++
        ([['a', 'b', 'c', 'd'], ['b', 'c', 'd', 'e'], ['c', 'd', 'e'], ['d', 'e'],
          ['e']] : List (List Char)).getLastD [] = ['a', 'b', 'c', 'd', 'e'] :=
  chunk_lossless ['a', 'b', 'c', 'd', 'e'] 4 3 (by decide)
    [['a', 'b', 'c', 'd'], ['b', 'c', 'd', 'e'], ['c', 'd', 'e'], ['d', 'e'], ['e']]
    (by decide)

/-- C4 (amended): every PDF without a sibling metadata file is still
included in the worklist and its filename recorded in the missing-metadata
list, with synthesized metadata `source = filename`, `title = stem`,
`year = "Unknown"`, `type = "document"` — but, contrary to the spec's
data-model defaults, with no author key at all (`author = none`; the code's
inline default dictionary simply omits it). -/
theorem scan_missing_bib_defaults (loads : String → Except String (List Entry))
    (pdf_files : List PdfEntry) (pdf : PdfEntry)
    (hmem : pdf ∈ pdf_files) (hbib : pdf.bib = none) :
    scan_documents loads (some pdf_files) =
        Except.ok ((scanLoop loads pdf_files).1, (scanLoop loads pdf_files).2) ∧
      pdf.name ∈ (scanLoop loads pdf_files).2 ∧
      ({ path := pdf.name,
         meta := { source := pdf.name, title := pdf.stem, year := "Unknown",
                   type := "document", author := none, journal := none } } : IngestItem)
        ∈ (scanLoop loads pdf_files).1 := by
  refine ⟨by rw [scan_documents], ?_⟩
  induction pdf_files with
  | nil => cases hmem
  | cons p rest ih =>
    rcases List.mem_cons.mp hmem with heq | hmem'
    · subst heq
      exact ⟨by simp [scanLoop, hbib], by simp [scanLoop, hbib]⟩
    · have hrest := ih hmem'
      cases hp : p.bib with
      | none =>
        exact ⟨by simp [scanLoop, hp, hrest.1], by simp [scanLoop, hp, hrest.2]⟩
      | some r =>
        exact ⟨by simp [scanLoop, hp, hrest.1], by simp [scanLoop, hp, hrest.2]⟩

theorem scan_missing_bib_defaults_witness :
    scan_documents (fun _ => Except.error "") (some [⟨"a.pdf", "a", none⟩]) =
        Except.ok ((scanLoop (fun _ => Except.error "") [⟨"a.pdf", "a", none⟩]).1,
          (scanLoop (fun _ => Except.error "") [⟨"a.pdf", "a", none⟩]).2) ∧
      "a.pdf" ∈ (scanLoop (fun _ => Except.error "") [⟨"a.pdf", "a", none⟩]).2 ∧
      ({ path := "a.pdf",
         meta := { source := "a.pdf", title := "a", year := "Unknown",
                   type := "document", author := none, journal := none } } : IngestItem)
        ∈ (scanLoop (fun _ => Except.error "") [⟨"a.pdf", "a", none⟩]).1 :=
  scan_missing_bib_defaults (fun _ => Except.error "") [⟨"a.pdf", "a", none⟩]
    ⟨"a.pdf", "a", none⟩ (List.mem_cons_self _ _) rfl

/-- C4 counterexample: the claim says the scanner-synthesized metadata has
author "Unknown"; in the code the scanner's inline default dictionary for a
PDF without a `.bib` has no author key at all (`none`, not
`some "Unknown"`). -/
theorem scan_author_claim_counterexample :
    scan_documents (fun _ => Except.error "") (some [⟨"a.pdf", "a", none⟩]) =
        Except.ok
          ([⟨"a.pdf", ⟨"a.pdf", "a", "Unknown", "document", none, none⟩⟩],
            ["a.pdf"]) ∧
      ({ source := "a.pdf", title := "a", year := "Unknown", type := "document",
         author := none, journal := none } : DocMeta).author ≠ some "Unknown" :=
  ⟨rfl, by decide⟩

/-- C7: the metadata parser never propagates a failure — an unreadable file,
a parser exception, or a record with no entries all fall back to the full
default metadata (filename as title, "Unknown" year and author, "document"
type); and when the record has several entries the result depends only on
the first. -/
theorem parse_bib_failure_fallback :
    (∀ (loads : String → Except String (List Entry)) (filename msg : String),
        parse_bib_file (Except.error msg) loads filename = defaultMetadata filename) ∧
      (∀ (loads : String → Except String (List Entry)) (filename text msg : String),
        loads text = Except.error msg →
        parse_bib_file (Except.ok text) loads filename = defaultMetadata filename) ∧
      (∀ (loads : String → Except String (List Entry)) (filename text : String),
        loads text = Except.ok [] →
        parse_bib_file (Except.ok text) loads filename = defaultMetadata filename) ∧
      (∀ (loads loads' : String → Except String (List Entry)) (filename text : String)
          (entry : Entry) (rest rest' : List Entry),
        loads text = Except.ok (entry :: rest) →
        loads' text = Except.ok (entry :: rest') →
        parse_bib_file (Except.ok text) loads filename =
          parse_bib_file (Except.ok text) loads' filename) := by
  refine ⟨fun loads filename msg => rfl, ?_, ?_, ?_⟩
  · intro loads filename text msg h
    simp [parse_bib_file, Except.bind, h]
  · intro loads filename text h
    simp [parse_bib_file, Except.bind, h]
  · intro loads loads' filename text entry rest rest' h h'
    simp [parse_bib_file, Except.bind, h, h']

theorem parse_bib_failure_fallback_witness :
    parse_bib_file (Except.ok "@bad") (fun _ => Except.error "syntax") "f.pdf" =
        defaultMetadata "f.pdf" ∧
      parse_bib_file (Except.error "unreadable") (fun _ => Except.ok []) "f.pdf" =
        defaultMetadata "f.pdf" :=
  ⟨parse_bib_failure_fallback.2.1 (fun _ => Except.error "syntax") "f.pdf" "@bad"
      "syntax" rfl,
    parse_bib_failure_fallback.1 (fun _ => Except.ok []) "f.pdf" "unreadable"⟩

/-- C9: the journal field of the parsed metadata prefers the entry's
explicit journal field, then its booktitle field, then "Unknown" — the
nested `getD` is exactly `entry.get("journal", entry.get("booktitle",
"Unknown"))`. -/
theorem parse_bib_journal_preference (loads : String → Except String (List Entry))
    (filename text : String) (entry : Entry) (rest : List Entry)
    (h : loads text = Except.ok (entry :: rest)) :
    (parse_bib_file (Except.ok text) loads filename).journal =
      some (entry.journal.getD (entry.booktitle.getD "Unknown")) := by
  simp [parse_bib_file, Except.bind, h]

theorem parse_bib_journal_preference_witness :
    (parse_bib_file (Except.ok "t")
        (fun _ => Except.ok [⟨none, none, none, some "ICML", none, none⟩])
        "f.pdf").journal = some "ICML" :=
  (parse_bib_journal_preference
      (fun _ => Except.ok [⟨none, none, none, some "ICML", none, none⟩])
      "f.pdf" "t" ⟨none, none, none, some "ICML", none, none⟩ [] rfl).trans rfl
